import Mathlib

/-!
# Verification of the `unrolled_list` container

Shallow embedding of the canonical (sentinel-free) variant of
`unrolled_list<T, NodeMaxSize, Allocator>` from the repository
(the draft whose `front`/`back` throw `std::out_of_range`, whose
iterators carry a `parent` back-reference, and whose `erase` uses
`remove_node`/`normalize_node`).

The container state is the chain of nodes, each node being the list of
its live elements (indices `[0, count)` of its slot storage); the cached
`total_size` is carried separately, exactly as in the source.  Iterators
are `(node, index)` cursors; the past-the-end iterator has a null node
pointer, modelled as `none`.  Node pointers are modelled positionally:
node `t` is the `t`-th node reachable from `head`.
-/

namespace UnrolledList

/-- An iterator value: `none` models `current_node == nullptr`
(the past-the-end iterator); `some (t, i)` models a cursor on the
`t`-th node of the chain at in-node index `i`
(`iterator::current_node`, `iterator::index_in_node`). -/
abbrev It := Option (Nat × Nat)

/-- Container state: `nodes` is the chain of nodes from `head` to `tail`,
each node given by the list of its live elements (`elem(0) .. elem(count-1)`);
`totalSize` is the cached `total_size` member. -/
structure UL (α : Type) where
  nodes : List (List α)
  totalSize : Nat
deriving DecidableEq, Repr

/-- The element sequence held by a chain of nodes, in iteration order. -/
def flat (nodes : List (List α)) : List α := nodes.flatten

/-- A default-constructed container: `head = tail = nullptr`, `total_size = 0`. -/
def ulEmpty {α : Type} : UL α := ⟨[], 0⟩

/-- The effect of the shift loop of `emplace_into_node_`
(lines `for (size_type i = node->count; i > ptr; i--) ...`) followed by a
successful `construct` at index `ptr`: elements `[ptr, count)` move up one
slot and the new element lands at `ptr`. -/
def insertAt (l : List α) (i : Nat) (x : α) : List α := l.take i ++ x :: l.drop i

/-- `emplace_into_node_(node, ptr, args...)` on the happy path (the element
construction succeeds).  If the target node is full it is split first:
`dataToMove = NodeMaxSize / 2` elements move into a fresh node placed right
after it, `startIndex = NodeMaxSize - dataToMove` elements stay; if
`ptr > node->count` after the split, the insertion retargets the new node.
Returns the updated container and the `(node, index)` of the new element.
`K` is the `NodeMaxSize` template parameter. -/
def emplaceIntoNode (K : Nat) (st : UL α) (t ptr : Nat) (x : α) :
    UL α × Nat × Nat :=
  let node := st.nodes.getD t []
  if node.length = K then
    let dataToMove := K / 2
    let startIndex := K - dataToMove
    let fr := node.take startIndex
    let bk := node.drop startIndex
    let nodes1 := st.nodes.take t ++ fr :: bk :: st.nodes.drop (t + 1)
    if startIndex < ptr then
      let p2 := ptr - startIndex
      (⟨nodes1.set (t + 1) (insertAt bk p2 x), st.totalSize + 1⟩, t + 1, p2)
    else
      (⟨nodes1.set t (insertAt fr ptr x), st.totalSize + 1⟩, t, ptr)
  else
    (⟨st.nodes.set t (insertAt node ptr x), st.totalSize + 1⟩, t, ptr)

/-- `emplace(pos, args...)`: if `head == nullptr` a first node is created;
a `pos` with a null node pointer targets `(tail, tail->count)`, otherwise
the node/index carried by `pos`. -/
def emplace (K : Nat) (st : UL α) (pos : It) (x : α) : UL α × It :=
  let st0 : UL α := if st.nodes.isEmpty then ⟨[[]], st.totalSize⟩ else st
  match pos with
  | none =>
      let t := st0.nodes.length - 1
      let r := emplaceIntoNode K st0 t ((st0.nodes.getD t []).length) x
      (r.1, some r.2)
  | some (t, i) =>
      let r := emplaceIntoNode K st0 t i x
      (r.1, some r.2)

/-- `begin()`: `iterator(head, 0)`; a null `head` gives the end iterator. -/
def beginIt (st : UL α) : It := if st.nodes.isEmpty then none else some (0, 0)

/-- `iterator::operator++` / `const_iterator::operator++` (both have the same
body): a null node pointer is returned unchanged; otherwise advance the index,
or move to `next` at index 0 (a null `next` yields the end iterator). -/
def iterNext (st : UL α) (it : It) : It :=
  match it with
  | none => none
  | some (t, i) =>
      let cnt := (st.nodes.getD t []).length
      if i < cnt - 1 then some (t, i + 1)
      else if t + 1 < st.nodes.length then some (t + 1, 0) else none

/-- `iterator::operator--` / `const_iterator::operator--`: from the end
iterator resolve to `(tail, tail->count - 1)` via the parent back-reference
(staying at the end iterator when `tail` is null); otherwise step back inside
the node or to `(prev, prev->count - 1)` (a null `prev` leaves the null node
pointer with index 0, i.e. the end iterator). -/
def iterPrev (st : UL α) (it : It) : It :=
  match it with
  | none =>
      if st.nodes.isEmpty then none
      else some (st.nodes.length - 1, (st.nodes.getD (st.nodes.length - 1) []).length - 1)
  | some (t, i) =>
      if 0 < i then some (t, i - 1)
      else if 0 < t then some (t - 1, (st.nodes.getD (t - 1) []).length - 1)
      else none

/-- Dereferencing an iterator (`operator*`): the element it denotes, if any. -/
def derefIt (st : UL α) (it : It) : Option α :=
  match it with
  | none => none
  | some (t, i) => (st.nodes.getD t []).get? i

/-- The flattened position denoted by an iterator: the number of elements
of the sequence that precede it (the end iterator sits at position `size`). -/
def itPos (st : UL α) : It → Nat
  | none => (flat st.nodes).length
  | some (t, i) => (flat (st.nodes.take t)).length + i

/-- Validity of an iterator as an element cursor into its container: a
non-null node pointer designates an existing node and an in-node index below
that node's count; the end iterator is always valid. -/
def itValid (st : UL α) : It → Prop
  | none => True
  | some (t, i) => t < st.nodes.length ∧ i < (st.nodes.getD t []).length

/-- `remove_node(node)`: unlink and destroy the node at position `t`,
returning the iterator the source computes (`end` when the chain had a single
node or the removed node was the tail, the new occupant of the position
otherwise). -/
def removeNode (nodes : List (List α)) (t : Nat) : List (List α) × It :=
  if nodes.length = 1 then ([], none)
  else if t = 0 then (nodes.eraseIdx 0, some (0, 0))
  else if t = nodes.length - 1 then (nodes.eraseIdx t, none)
  else (nodes.eraseIdx t, some (t, 0))

/-- The body of `erase(first, last)` once the null node pointers of the
range have been resolved (`ts`/`te` are the node/index pairs of
`start_node`/`start_index` and `end_node`/`end_index`).  The same-node case
destroys `[start_index, end_index)` and closes the gap (`normalize_node`);
the cross-node case truncates the start node, destroys and unlinks every
whole node strictly between, and shifts the end node down; every node left
with `count == 0` is removed via `remove_node`. -/
def eraseResolved (st : UL α) (ts te : Nat × Nat) : UL α × It :=
  let nodes := st.nodes
  if ts.1 = te.1 then
      let node := nodes.getD ts.1 []
      let erased := te.2 - ts.2
      let node2 := node.take ts.2 ++ node.drop te.2
      let nodes2 := nodes.set ts.1 node2
      let total2 := st.totalSize - erased
      if node2.length = 0 then
        let r := removeNode nodes2 ts.1
        (⟨r.1, total2⟩, r.2)
      else (⟨nodes2, total2⟩, some (ts.1, ts.2))
    else
      let sNode := nodes.getD ts.1 []
      let e1 := sNode.length - ts.2
      let sKeep := sNode.take ts.2
      let mids := (nodes.drop (ts.1 + 1)).take (te.1 - (ts.1 + 1))
      let e2 := (mids.map List.length).sum
      let eNode := nodes.getD te.1 []
      let e3 := te.2
      let eKeep := eNode.drop te.2
      let total2 := st.totalSize - (e1 + e2 + e3)
      let pre := nodes.take ts.1
      let keepS : List (List α) := if sKeep.isEmpty then [] else [sKeep]
      let suf := nodes.drop (te.1 + 1)
      if eKeep.isEmpty then
        let chain := pre ++ keepS ++ [] :: suf
        let r := removeNode chain (pre.length + keepS.length)
        (⟨r.1, total2⟩, r.2)
      else
        (⟨pre ++ keepS ++ eKeep :: suf, total2⟩, some (pre.length + keepS.length, 0))

/-- `erase(first, last)`.  An empty range or an empty container returns
`first` unchanged; otherwise a null `last` node pointer resolves to
`(tail, tail->count)` and a null `first` node pointer to `(head, 0)`, and
the resolved body runs. -/
def eraseRange (st : UL α) (first last : It) : UL α × It :=
  if first = last ∨ st.totalSize = 0 then (st, first)
  else
    let te : Nat × Nat :=
      match last with
      | none => (st.nodes.length - 1, (st.nodes.getD (st.nodes.length - 1) []).length)
      | some p => p
    let ts : Nat × Nat :=
      match first with
      | none => (0, 0)
      | some p => p
    eraseResolved st ts te

/-- `erase(pos)`: a one-past copy of `pos` is made with `operator++` and the
range overload is called. -/
def eraseOne (st : UL α) (pos : It) : UL α × It :=
  eraseRange st pos (iterNext st pos)

/-- `push_back(value)` = `emplace(cend(), value)`. -/
def pushBack (K : Nat) (st : UL α) (x : α) : UL α := (emplace K st none x).1

/-- `push_front(value)` = `emplace(begin(), value)`. -/
def pushFront (K : Nat) (st : UL α) (x : α) : UL α := (emplace K st (beginIt st) x).1

/-- `pop_back()` = `erase(--end())`. -/
def popBack (st : UL α) : UL α := (eraseOne st (iterPrev st none)).1

/-- `pop_front()` = `erase(begin())`. -/
def popFront (st : UL α) : UL α := (eraseOne st (beginIt st)).1

/-- `clear()`: destroy every node, `head = tail = nullptr`, `total_size = 0`. -/
def clear (_st : UL α) : UL α := ⟨[], 0⟩

/-- `front()`: throws `std::out_of_range` when `head == nullptr` (modelled as
`none`), otherwise returns `*head->elem(0)`. -/
def frontVal (st : UL α) : Option α :=
  match st.nodes with
  | [] => none
  | n :: _ => n.get? 0

/-- `back()`: throws `std::out_of_range` when `tail == nullptr` (modelled as
`none`), otherwise returns `*tail->elem(tail->count - 1)`. -/
def backVal (st : UL α) : Option α :=
  match st.nodes.getLast? with
  | none => none
  | some n => n.get? (n.length - 1)

/-- The move constructor `unrolled_list(unrolled_list&& other)`: the new
container takes `other`'s `head`, `tail` and `total_size`; `other` is left
with `head = tail = nullptr` and `total_size = 0`.  Result:
(new container, moved-from source). -/
def moveConstruct (st : UL α) : UL α × UL α := (⟨st.nodes, st.totalSize⟩, ⟨[], 0⟩)

/-- The copy constructor: deep-copies every node in chain order preserving
per-node packing, accumulating `total_size` as the sum of the copied counts. -/
def copyConstruct (st : UL α) : UL α :=
  ⟨st.nodes, ((st.nodes.map List.length).sum)⟩

/-- `operator=(const unrolled_list&)`: guarded by `this != &other`
(`same` models `this == &other`); the non-self path is copy-and-swap. -/
def copyAssign (st other : UL α) (same : Bool) : UL α :=
  if same then st else copyConstruct other

/-- `operator=(unrolled_list&&)`: guarded by `this != &other`; the non-self
path clears `this`, steals `other`'s members and empties `other`.
Result: (assigned-to state, source state after the call). -/
def moveAssign (st other : UL α) (same : Bool) : UL α × UL α :=
  if same then (st, other) else (⟨other.nodes, other.totalSize⟩, ⟨[], 0⟩)

/-- Reading the whole container through the iteration protocol:
dereference, then `operator++`, until the end iterator (with fuel, which any
value at least `totalSize` suffices for on well-formed states). -/
def iterToList (st : UL α) : Nat → It → List α
  | 0, _ => []
  | fuel + 1, it =>
      match derefIt st it with
      | none => []
      | some v => v :: iterToList st fuel (iterNext st it)

/-- The public mutating operations the invariant claims quantify over
(the remaining public mutators of the source are compositions of these:
`insert(pos, n, v)` loops `insert`, `assign_range` is `clear` plus
`push_back` loops, `prepend_range` loops `push_front`, `emplace_back` /
`emplace_front` call `emplace`). -/
inductive Op (α : Type) where
  | pushB (x : α)
  | pushF (x : α)
  | popB
  | popF
  | ins (pos : It) (x : α)
  | ers (first last : It)
  | clr

/-- Run one public operation on a container state. -/
def applyOp (K : Nat) (op : Op α) (st : UL α) : UL α :=
  match op with
  | .pushB x => pushBack K st x
  | .pushF x => pushFront K st x
  | .popB => popBack st
  | .popF => popFront st
  | .ins p x => (emplace K st p x).1
  | .ers p q => (eraseRange st p q).1
  | .clr => clear st

/-- The iterator arguments of an operation belong to the container they are
used on: an iterator into an empty container can only be the end iterator
(any other node pointer would be dangling). -/
def opValid (op : Op α) (st : UL α) : Prop :=
  match op with
  | .ins pos _ => st.nodes = [] → pos = none
  | _ => True

/-!
## Slot-level model of `emplace_into_node_` under a throwing construction

For the exception-safety claim the element slots of a node must be modelled
individually: a slot is `some v` while it holds a live element and `none`
after `allocator_traits::destroy` (or before any construction).  Only the
slots in `[0, count)` are observable.
-/

/-- A node at slot granularity: `slots` has one entry per storage slot
(`none` = no live element constructed there), `count` is the node's
`count` member. -/
structure SlotNode (α : Type) where
  slots : List (Option α)
  count : Nat
deriving DecidableEq, Repr

/-- The observable content of a chain at slot level: for each node the slots
in `[0, count)`, which the container's invariant promises are all live. -/
def observe (nodes : List (SlotNode α)) : List (Option α) :=
  (nodes.map fun n => n.slots.take n.count).flatten

/-- Net effect on a node's slots of the shift loop of `emplace_into_node_`
(`for (size_type i = node->count; i > ptr; i--) ...`, which move-constructs
upward and destroys the vacated slot) at the moment the subsequent
`allocator_traits::construct(allocator, node->elem(ptr), args...)` throws:
slot `ptr` has been destroyed, slots `[ptr, cnt)` now live at
`[ptr + 1, cnt + 1)`, and `count` has not yet been incremented. -/
def shiftThrowSlots (slots : List (Option α)) (cnt ptr : Nat) : List (Option α) :=
  slots.take ptr ++ none :: ((slots.drop ptr).take (cnt - ptr)) ++ slots.drop (cnt + 1)

/-- `emplace_into_node_(node, ptr, args...)` when the final element
construction throws: the state the container is left in when the exception
propagates (there is no catch or rollback in the source).  The split (when
the node was full) and the shift loop have already been committed; in the
split the moved-from source slots are simply abandoned (`node->count =
startIndex` without destroying them). -/
def emplaceIntoNodeThrow (K : Nat) (nodes : List (SlotNode α)) (t ptr : Nat) :
    List (SlotNode α) :=
  let node := nodes.getD t ⟨[], 0⟩
  if node.count = K then
    let dataToMove := K / 2
    let startIndex := K - dataToMove
    let newSlots := (node.slots.drop startIndex).take dataToMove ++
      List.replicate (K - dataToMove) none
    let nodes1 := nodes.take t ++ (⟨node.slots, startIndex⟩ : SlotNode α) ::
      (⟨newSlots, dataToMove⟩ : SlotNode α) :: nodes.drop (t + 1)
    if startIndex < ptr then
      let p2 := ptr - startIndex
      nodes1.set (t + 1) ⟨shiftThrowSlots newSlots dataToMove p2, dataToMove⟩
    else
      nodes1.set t ⟨shiftThrowSlots node.slots startIndex ptr, startIndex⟩
  else
    nodes.set t ⟨shiftThrowSlots node.slots node.count ptr, node.count⟩

/-- The `main` driver of the boundary test: `NodeMaxSize = 4`, `push_back`
of `1..14`, then `pop_front` five times. -/
def boundaryRun : UL Nat :=
  (List.range 5).foldl (fun s _ => popFront s)
    ((List.range 14).foldl (fun s i => pushBack 4 s (i + 1)) ulEmpty)

/-- The iterator value `erase(first, last)` hands back when the erased range
reaches the end of the sequence, as computed by the source: erasing a proper
suffix of the surviving tail node returns `iterator(tail, start_index)`
(a non-end, non-element position), every other suffix erase returns `end()`. -/
def suffixEraseReturn (st : UL α) (first : It) : It :=
  match first with
  | some (t, i) => if t = st.nodes.length - 1 ∧ 0 < i then some (t, i) else none
  | none => none

/-- A concrete two-node container used to exercise `erase(first, last)`. -/
def c3st : UL Nat := ⟨[[1, 2], [3, 4]], 4⟩

/-!
## General list bookkeeping lemmas used by the verification
-/

theorem insertAt_length (l : List α) (i : Nat) (x : α) :
    (insertAt l i x).length = l.length + 1 := by
  simp only [insertAt, List.length_append, List.length_take, List.length_cons,
    List.length_drop]
  omega

theorem insertAt_ne_nil (l : List α) (i : Nat) (x : α) : insertAt l i x ≠ [] := by
  apply List.ne_nil_of_length_pos
  rw [insertAt_length]
  omega

theorem set_len_append (a b : List α) (k : Nat) (x : α) :
    (a ++ b).set (a.length + k) x = a ++ b.set k x := by
  induction a with
  | nil => simp
  | cons y ys ih => simp [List.set, Nat.succ_add, ih]

theorem eraseIdx_len_append (a b : List α) :
    (a ++ b).eraseIdx a.length = a ++ b.eraseIdx 0 := by
  induction a with
  | nil => rfl
  | cons y ys ih => simp [List.eraseIdx, ih]

theorem eraseIdx_set_self (l : List α) (n : Nat) (x : α) :
    (l.set n x).eraseIdx n = l.eraseIdx n := by
  induction l generalizing n with
  | nil => rfl
  | cons y ys ih =>
      cases n with
      | zero => rfl
      | succ m => simp [List.set, List.eraseIdx, ih]

theorem set_eq_len_append (a b : List α) (n : Nat) (v : α) (h : n = a.length) :
    (a ++ b).set n v = a ++ b.set 0 v := by
  subst h
  have := set_len_append a b 0 v
  rw [Nat.add_zero] at this
  exact this

theorem set_succ_len_append (a b : List α) (n : Nat) (v : α) (h : n = a.length) :
    (a ++ b).set (n + 1) v = a ++ b.set 1 v := by
  subst h
  exact set_len_append a b 1 v

/-!
## Behaviour of `emplace_into_node_` and `emplace`
-/

theorem emplaceIntoNode_not_full (K : Nat) (st : UL α) (t ptr : Nat) (x : α)
    (h : (st.nodes.getD t []).length ≠ K) :
    (emplaceIntoNode K st t ptr x).1 =
      ⟨st.nodes.set t (insertAt (st.nodes.getD t []) ptr x), st.totalSize + 1⟩ := by
  unfold emplaceIntoNode
  rw [if_neg h]

theorem emplaceIntoNode_full (K : Nat) (st : UL α) (t ptr : Nat) (x : α)
    (h : (st.nodes.getD t []).length = K) (ht : t < st.nodes.length) :
    (emplaceIntoNode K st t ptr x).1.nodes =
      if K - K / 2 < ptr then
        st.nodes.take t ++ (st.nodes.getD t []).take (K - K / 2) ::
          insertAt ((st.nodes.getD t []).drop (K - K / 2)) (ptr - (K - K / 2)) x ::
          st.nodes.drop (t + 1)
      else
        st.nodes.take t ++ insertAt ((st.nodes.getD t []).take (K - K / 2)) ptr x ::
          (st.nodes.getD t []).drop (K - K / 2) :: st.nodes.drop (t + 1) := by
  have hlt : t = (st.nodes.take t).length :=
    (List.length_take_of_le (Nat.le_of_lt ht)).symm
  unfold emplaceIntoNode
  rw [if_pos h]
  by_cases hc : K - K / 2 < ptr
  · rw [if_pos hc, if_pos hc]
    show (st.nodes.take t ++ (st.nodes.getD t []).take (K - K / 2) ::
        (st.nodes.getD t []).drop (K - K / 2) :: st.nodes.drop (t + 1)).set (t + 1) _ = _
    rw [set_succ_len_append _ _ _ _ hlt]
    simp [List.set]
  · rw [if_neg hc, if_neg hc]
    show (st.nodes.take t ++ (st.nodes.getD t []).take (K - K / 2) ::
        (st.nodes.getD t []).drop (K - K / 2) :: st.nodes.drop (t + 1)).set t _ = _
    rw [set_eq_len_append _ _ _ _ hlt]
    simp [List.set]

theorem full_t_lt (K : Nat) (hK : 1 ≤ K) (st : UL α) (t : Nat)
    (h : (st.nodes.getD t []).length = K) : t < st.nodes.length := by
  by_contra hge
  rw [List.getD_eq_default] at h
  · simp at h
    omega
  · omega

theorem emplaceIntoNode_full_length (K : Nat) (hK : 1 ≤ K) (st : UL α) (t ptr : Nat) (x : α)
    (h : (st.nodes.getD t []).length = K) :
    (emplaceIntoNode K st t ptr x).1.nodes.length = st.nodes.length + 1 := by
  have ht := full_t_lt K hK st t h
  have hlt : (st.nodes.take t).length = t := List.length_take_of_le (Nat.le_of_lt ht)
  rw [emplaceIntoNode_full K st t ptr x h ht]
  by_cases hc : K - K / 2 < ptr
  · rw [if_pos hc]
    simp only [List.length_append, List.length_cons, List.length_drop, hlt]
    omega
  · rw [if_neg hc]
    simp only [List.length_append, List.length_cons, List.length_drop, hlt]
    omega

theorem emplace_empty_chain (K : Nat) (hK : 1 ≤ K) (tot : Nat) (t ptr : Nat) (x : α) :
    (emplaceIntoNode K (⟨[[]], tot⟩ : UL α) t ptr x).1.nodes.length = 1 := by
  have hg : ((([[]] : List (List α))).getD t []).length ≠ K := by
    cases t <;> simp [List.getD] <;> omega
  rw [emplaceIntoNode_not_full K _ t ptr x hg]
  simp

theorem emplace_le_one_new_node (K : Nat) (hK : 1 ≤ K) (st : UL α) (pos : It) (x : α) :
    (emplace K st pos x).1.nodes.length ≤ st.nodes.length + 1 := by
  have key : ∀ (st0 : UL α) (t ptr : Nat),
      (emplaceIntoNode K st0 t ptr x).1.nodes.length ≤ st0.nodes.length + 1 := by
    intro st0 t ptr
    by_cases hfull : (st0.nodes.getD t []).length = K
    · exact Nat.le_of_eq (emplaceIntoNode_full_length K hK st0 t ptr x hfull)
    · rw [emplaceIntoNode_not_full K st0 t ptr x hfull]
      simp
  by_cases hemp : st.nodes.isEmpty
  · have hnil : st.nodes = [] := by
      cases hst : st.nodes
      · rfl
      · rw [hst] at hemp; simp at hemp
    unfold emplace
    rw [if_pos hemp]
    cases pos with
    | none =>
        rw [hnil]
        simpa using Nat.le_of_eq (emplace_empty_chain K hK st.totalSize _ _ x)
    | some p =>
        rw [hnil]
        simpa using Nat.le_of_eq (emplace_empty_chain K hK st.totalSize p.1 p.2 x)
  · unfold emplace
    rw [if_neg hemp]
    cases pos with
    | none => exact key st _ _
    | some p => exact key st p.1 p.2

theorem emplaceIntoNode_bound (K : Nat) (hK : 2 ≤ K) (st : UL α) (t ptr : Nat) (x : α)
    (h : ∀ n ∈ st.nodes, n.length ≤ K) :
    ∀ m ∈ (emplaceIntoNode K st t ptr x).1.nodes, m.length ≤ K := by
  by_cases hfull : (st.nodes.getD t []).length = K
  · have ht := full_t_lt K (by omega) st t hfull
    rw [emplaceIntoNode_full K st t ptr x hfull ht]
    have hfr : ((st.nodes.getD t []).take (K - K / 2)).length = K - K / 2 :=
      List.length_take_of_le (by rw [hfull]; omega)
    have hbk : ((st.nodes.getD t []).drop (K - K / 2)).length = K / 2 := by
      rw [List.length_drop, hfull]
      omega
    intro m hm
    by_cases hc : K - K / 2 < ptr
    · rw [if_pos hc] at hm
      rcases List.mem_append.mp hm with h1 | h2
      · exact h m (List.mem_of_mem_take h1)
      · rcases List.mem_cons.mp h2 with rfl | h3
        · rw [hfr]; omega
        · rcases List.mem_cons.mp h3 with rfl | h4
          · rw [insertAt_length, hbk]; omega
          · exact h m (List.mem_of_mem_drop h4)
    · rw [if_neg hc] at hm
      rcases List.mem_append.mp hm with h1 | h2
      · exact h m (List.mem_of_mem_take h1)
      · rcases List.mem_cons.mp h2 with rfl | h3
        · rw [insertAt_length, hfr]; omega
        · rcases List.mem_cons.mp h3 with rfl | h4
          · rw [hbk]; omega
          · exact h m (List.mem_of_mem_drop h4)
  · rw [(congrArg UL.nodes (emplaceIntoNode_not_full K st t ptr x hfull))]
    intro m hm
    rcases List.mem_or_eq_of_mem_set hm with h1 | rfl
    · exact h m h1
    · rw [insertAt_length]
      by_cases ht : t < st.nodes.length
      · have hmem : st.nodes.getD t [] ∈ st.nodes := by
          rw [List.getD_eq_getElem st.nodes [] ht]
          exact List.getElem_mem ht
        have := h _ hmem
        omega
      · rw [List.getD_eq_default st.nodes [] (by omega)]
        simp
        omega

theorem emplace_bound (K : Nat) (hK : 2 ≤ K) (st : UL α) (pos : It) (x : α)
    (h : ∀ n ∈ st.nodes, n.length ≤ K) :
    ∀ m ∈ (emplace K st pos x).1.nodes, m.length ≤ K := by
  by_cases hemp : st.nodes.isEmpty
  · have h0 : ∀ n ∈ ([[]] : List (List α)), n.length ≤ K := by
      intro n hn
      simp at hn
      simp [hn]
    unfold emplace
    rw [if_pos hemp]
    cases pos with
    | none => exact emplaceIntoNode_bound K hK ⟨[[]], st.totalSize⟩ _ _ x h0
    | some p => exact emplaceIntoNode_bound K hK ⟨[[]], st.totalSize⟩ p.1 p.2 x h0
  · unfold emplace
    rw [if_neg hemp]
    cases pos with
    | none => exact emplaceIntoNode_bound K hK st _ _ x h
    | some p => exact emplaceIntoNode_bound K hK st p.1 p.2 x h

/-!
## Preservation of the no-empty-node invariant
-/

theorem removeNode_no_empty (nodes : List (List α)) (t : Nat)
    (h : ∀ n ∈ nodes.eraseIdx t, n ≠ []) :
    ∀ n ∈ (removeNode nodes t).1, n ≠ [] := by
  unfold removeNode
  split_ifs with h1 h2 h3
  · intro n hn
    simp at hn
  · subst h2
    exact h
  · exact h
  · exact h

theorem chain_no_empty_removed (pre keepS suf : List (List α))
    (hpre : ∀ n ∈ pre, n ≠ []) (hkeep : ∀ n ∈ keepS, n ≠ [])
    (hsuf : ∀ n ∈ suf, n ≠ []) :
    ∀ n ∈ ((pre ++ keepS ++ [] :: suf).eraseIdx (pre.length + keepS.length)), n ≠ [] := by
  rw [show pre.length + keepS.length = (pre ++ keepS).length from
      (List.length_append _ _).symm,
    eraseIdx_len_append]
  intro n hn
  simp only [List.eraseIdx] at hn
  rcases List.mem_append.mp hn with h1 | h2
  · rcases List.mem_append.mp h1 with h3 | h4
    · exact hpre n h3
    · exact hkeep n h4
  · exact hsuf n h2

theorem chain_no_empty_kept (pre keepS suf : List (List α)) (eK : List α)
    (hpre : ∀ n ∈ pre, n ≠ []) (hkeep : ∀ n ∈ keepS, n ≠ [])
    (hsuf : ∀ n ∈ suf, n ≠ []) (heK : eK ≠ []) :
    ∀ n ∈ pre ++ keepS ++ eK :: suf, n ≠ [] := by
  intro n hn
  rcases List.mem_append.mp hn with h1 | h2
  · rcases List.mem_append.mp h1 with h3 | h4
    · exact hpre n h3
    · exact hkeep n h4
  · rcases List.mem_cons.mp h2 with rfl | h5
    · exact heK
    · exact hsuf n h5

theorem keepS_no_empty (sK : List α) :
    ∀ n ∈ (if sK.isEmpty then ([] : List (List α)) else [sK]), n ≠ [] := by
  by_cases hke : sK.isEmpty
  · rw [if_pos hke]
    intro n hn
    simp at hn
  · rw [if_neg hke]
    intro n hn
    simp at hn
    subst hn
    simpa using hke

theorem eraseResolved_no_empty (st : UL α) (ts te : Nat × Nat)
    (h : ∀ n ∈ st.nodes, n ≠ []) :
    ∀ n ∈ (eraseResolved st ts te).1.nodes, n ≠ [] := by
  have hpreNE : ∀ n ∈ st.nodes.take ts.1, n ≠ [] :=
    fun n hn => h n (List.mem_of_mem_take hn)
  have hsufNE : ∀ n ∈ st.nodes.drop (te.1 + 1), n ≠ [] :=
    fun n hn => h n (List.mem_of_mem_drop hn)
  unfold eraseResolved
  by_cases hsame : ts.1 = te.1
  · rw [if_pos hsame]
    by_cases hz : ((st.nodes.getD ts.1 []).take ts.2 ++ (st.nodes.getD ts.1 []).drop te.2).length = 0
    · rw [if_pos hz]
      apply removeNode_no_empty
      rw [eraseIdx_set_self]
      intro n hn
      exact h n ((List.eraseIdx_sublist st.nodes ts.1).subset hn)
    · rw [if_neg hz]
      intro n hn
      rcases List.mem_or_eq_of_mem_set hn with h1 | rfl
      · exact h n h1
      · exact List.ne_nil_of_length_pos (by omega)
  · rw [if_neg hsame]
    by_cases he : ((st.nodes.getD te.1 []).drop te.2).isEmpty
    · rw [if_pos he]
      apply removeNode_no_empty
      exact chain_no_empty_removed _ _ _ hpreNE
        (keepS_no_empty ((st.nodes.getD ts.1 []).take ts.2)) hsufNE
    · rw [if_neg he]
      exact chain_no_empty_kept _ _ _ _ hpreNE
        (keepS_no_empty ((st.nodes.getD ts.1 []).take ts.2)) hsufNE
        (by simpa using he)

theorem eraseRange_no_empty (st : UL α) (first last : It)
    (h : ∀ n ∈ st.nodes, n ≠ []) :
    ∀ n ∈ (eraseRange st first last).1.nodes, n ≠ [] := by
  unfold eraseRange
  by_cases hg : first = last ∨ st.totalSize = 0
  · rw [if_pos hg]
    exact h
  · rw [if_neg hg]
    exact eraseResolved_no_empty st _ _ h

theorem emplaceIntoNode_no_empty (K : Nat) (hK : 2 ≤ K) (st : UL α) (t ptr : Nat) (x : α)
    (h : ∀ n ∈ st.nodes, n ≠ []) :
    ∀ n ∈ (emplaceIntoNode K st t ptr x).1.nodes, n ≠ [] := by
  by_cases hfull : (st.nodes.getD t []).length = K
  · have ht := full_t_lt K (by omega) st t hfull
    rw [emplaceIntoNode_full K st t ptr x hfull ht]
    have hfr : ((st.nodes.getD t []).take (K - K / 2)).length = K - K / 2 :=
      List.length_take_of_le (by rw [hfull]; omega)
    have hbk : ((st.nodes.getD t []).drop (K - K / 2)).length = K / 2 := by
      rw [List.length_drop, hfull]
      omega
    intro m hm
    by_cases hc : K - K / 2 < ptr
    · rw [if_pos hc] at hm
      rcases List.mem_append.mp hm with h1 | h2
      · exact h m (List.mem_of_mem_take h1)
      · rcases List.mem_cons.mp h2 with rfl | h3
        · exact List.ne_nil_of_length_pos (by omega)
        · rcases List.mem_cons.mp h3 with rfl | h4
          · exact insertAt_ne_nil _ _ _
          · exact h m (List.mem_of_mem_drop h4)
    · rw [if_neg hc] at hm
      rcases List.mem_append.mp hm with h1 | h2
      · exact h m (List.mem_of_mem_take h1)
      · rcases List.mem_cons.mp h2 with rfl | h3
        · exact insertAt_ne_nil _ _ _
        · rcases List.mem_cons.mp h3 with rfl | h4
          · exact List.ne_nil_of_length_pos (by omega)
          · exact h m (List.mem_of_mem_drop h4)
  · rw [(congrArg UL.nodes (emplaceIntoNode_not_full K st t ptr x hfull))]
    intro m hm
    rcases List.mem_or_eq_of_mem_set hm with h1 | rfl
    · exact h m h1
    · exact insertAt_ne_nil _ _ _

theorem emplace_no_empty (K : Nat) (hK : 2 ≤ K) (st : UL α) (pos : It) (x : α)
    (h : ∀ n ∈ st.nodes, n ≠ []) (hpos : st.nodes = [] → pos = none) :
    ∀ n ∈ (emplace K st pos x).1.nodes, n ≠ [] := by
  by_cases hemp : st.nodes.isEmpty
  · have hnil : st.nodes = [] := by
      cases hst : st.nodes
      · rfl
      · rw [hst] at hemp; simp at hemp
    have hposn : pos = none := hpos hnil
    subst hposn
    unfold emplace
    rw [if_pos hemp]
    have hg : ((([[]] : List (List α))).getD (([[]] : List (List α)).length - 1) []).length ≠ K := by
      simp [List.getD]
      omega
    intro n hn
    rw [(congrArg UL.nodes (emplaceIntoNode_not_full K ⟨[[]], st.totalSize⟩ _ _ x hg))] at hn
    simp only [List.set] at hn
    rcases List.mem_singleton.mp hn with rfl
    exact insertAt_ne_nil _ _ _
  · unfold emplace
    rw [if_neg hemp]
    cases pos with
    | none => exact emplaceIntoNode_no_empty K hK st _ _ x h
    | some p => exact emplaceIntoNode_no_empty K hK st p.1 p.2 x h

/-!
## Indexed-append and flatten lemmas for the `erase` analysis
-/

theorem take_len_append (a b : List α) (n : Nat) (h : n = a.length) :
    (a ++ b).take n = a := by
  subst h
  exact List.take_left a b

theorem take_len_add_append (a b : List α) (n k : Nat) (h : n = a.length + k) :
    (a ++ b).take n = a ++ b.take k := by
  subst h
  exact List.take_append k

theorem drop_len_append (a b : List α) (n : Nat) (h : n = a.length) :
    (a ++ b).drop n = b := by
  subst h
  simp

theorem drop_len_add_append (a b : List α) (n k : Nat) (h : n = a.length + k) :
    (a ++ b).drop n = b.drop k := by
  subst h
  exact List.drop_append k

theorem get?_len_add_append (a b : List α) (n k : Nat) (h : n = a.length + k) :
    (a ++ b).get? n = b.get? k := by
  subst h
  rw [List.get?_eq_getElem?, List.get?_eq_getElem?,
    List.getElem?_append_right (Nat.le_add_right _ _)]
  simp

theorem getD_len_add_append (a b : List α) (n k : Nat) (d : α) (h : n = a.length + k) :
    (a ++ b).getD n d = b.getD k d := by
  subst h
  induction a with
  | nil => simp
  | cons y ys ih =>
      rw [show (y :: ys).length + k = ys.length + k + 1 by rw [List.length_cons]; omega]
      simpa using ih

theorem getD_len_append (a b : List α) (n : Nat) (d : α) (h : n = a.length) :
    (a ++ b).getD n d = b.getD 0 d :=
  getD_len_add_append a b n 0 d (by omega)

theorem eraseIdx_eq_len_append (a b : List α) (n : Nat) (h : n = a.length) :
    (a ++ b).eraseIdx n = a ++ b.eraseIdx 0 := by
  subst h
  exact eraseIdx_len_append a b

theorem getD_drop_add (l : List α) (a k : Nat) (d : α) (h : a + k < l.length) :
    (l.drop a).getD k d = l.getD (a + k) d := by
  have hk : k < (l.drop a).length := by
    rw [List.length_drop]
    omega
  rw [List.getD_eq_getElem _ d hk, List.getD_eq_getElem _ d h]
  exact List.getElem_drop l

theorem drop_drop_of_eq (l : List α) (a k n : Nat) (h : a + k = n) :
    (l.drop a).drop k = l.drop n := by
  subst h
  rw [List.drop_drop]

theorem nodes_decomp (nodes : List (List α)) (t : Nat) (ht : t < nodes.length) :
    nodes = nodes.take t ++ nodes.getD t [] :: nodes.drop (t + 1) := by
  conv_lhs => rw [← List.take_append_drop t nodes]
  rw [List.drop_eq_getElem_cons ht, List.getD_eq_getElem nodes [] ht]

theorem flat_append (a b : List (List α)) : flat (a ++ b) = flat a ++ flat b := by
  simp [flat, List.flatten_append]

theorem flat_cons (n : List α) (rest : List (List α)) :
    flat (n :: rest) = n ++ flat rest := by
  simp [flat]

theorem flat_decomp (nodes : List (List α)) (t : Nat) (ht : t < nodes.length) :
    flat nodes = flat (nodes.take t) ++ (nodes.getD t [] ++ flat (nodes.drop (t + 1))) := by
  conv_lhs => rw [nodes_decomp nodes t ht]
  rw [flat_append, flat_cons]

theorem flat_length_pos (nodes : List (List α)) (hwf : ∀ n ∈ nodes, n ≠ [])
    (h : nodes ≠ []) : 0 < (flat nodes).length := by
  cases nodes with
  | nil => exact absurd rfl h
  | cons n rest =>
      have h1 : 0 < n.length := List.length_pos.mpr (hwf n (List.mem_cons_self n rest))
      rw [flat_cons, List.length_append]
      omega

theorem flat_set_decomp (nodes : List (List α)) (t : Nat) (v : List α)
    (ht : t < nodes.length) :
    flat (nodes.set t v) = flat (nodes.take t) ++ (v ++ flat (nodes.drop (t + 1))) := by
  rw [List.set_eq_take_cons_drop v ht, flat_append, flat_cons]

theorem take_set_self (l : List α) (t : Nat) (v : α) : (l.set t v).take t = l.take t := by
  by_cases ht : t < l.length
  · rw [List.set_eq_take_cons_drop v ht]
    exact take_len_append _ _ _ (List.length_take_of_le (Nat.le_of_lt ht)).symm
  · rw [List.set_eq_of_length_le (by omega)]

theorem flat_take_succ (nodes : List (List α)) (t : Nat) (ht : t < nodes.length) :
    flat (nodes.take (t + 1)) = flat (nodes.take t) ++ nodes.getD t [] := by
  rw [List.take_succ, flat_append]
  congr 1
  rw [List.getElem?_eq_getElem ht]
  show flat [nodes[t]] = nodes.getD t []
  rw [List.getD_eq_getElem nodes [] ht]
  simp [flat]

theorem flat_take_mono (nodes : List (List α)) (a b : Nat) (h : a ≤ b) :
    (flat (nodes.take a)).length ≤ (flat (nodes.take b)).length := by
  induction b, h using Nat.le_induction with
  | base => exact Nat.le_refl _
  | succ n hn ih =>
      by_cases hlen : n < nodes.length
      · rw [flat_take_succ _ n hlen, List.length_append]
        omega
      · rw [show nodes.take (n + 1) = nodes.take n by
          rw [List.take_of_length_le (by omega), List.take_of_length_le (by omega)]]
        exact ih

theorem flat_get_at (nodes : List (List α)) (t i : Nat) (ht : t < nodes.length)
    (hi : i < (nodes.getD t []).length) :
    (flat nodes).get? ((flat (nodes.take t)).length + i) = (nodes.getD t []).get? i := by
  rw [flat_decomp nodes t ht, get?_len_add_append _ _ _ _ rfl,
    List.get?_eq_getElem?, List.get?_eq_getElem?, List.getElem?_append_left hi]

theorem itPos_none (st : UL α) : itPos st none = (flat st.nodes).length := rfl

theorem itPos_some (st : UL α) (t i : Nat) :
    itPos st (some (t, i)) = (flat (st.nodes.take t)).length + i := rfl

theorem itValid_some (st : UL α) (t i : Nat) :
    itValid st (some (t, i)) ↔
      (t < st.nodes.length ∧ i < (st.nodes.getD t []).length) := Iff.rfl

theorem itPos_lt_length (st : UL α) (t i : Nat)
    (ht : t < st.nodes.length) (hi : i < (st.nodes.getD t []).length) :
    itPos st (some (t, i)) < (flat st.nodes).length := by
  rw [itPos_some, flat_decomp st.nodes t ht]
  simp only [List.length_append]
  omega

theorem itPos_node_lt (st : UL α) (t1 i1 t2 i2 : Nat)
    (h12 : t1 < t2) (ht1 : t1 < st.nodes.length)
    (hi1 : i1 < (st.nodes.getD t1 []).length) :
    itPos st (some (t1, i1)) < itPos st (some (t2, i2)) := by
  have h1 : (flat (st.nodes.take (t1 + 1))).length ≤ (flat (st.nodes.take t2)).length :=
    flat_take_mono _ _ _ h12
  rw [flat_take_succ _ t1 ht1, List.length_append] at h1
  rw [itPos_some, itPos_some]
  omega

theorem flat_keepS (l : List α) :
    flat (if l.isEmpty then ([] : List (List α)) else [l]) = l := by
  by_cases h : l.isEmpty
  · rw [if_pos h]
    have : l = [] := by simpa using h
    rw [this]
    rfl
  · rw [if_neg h]
    simp [flat]

theorem removeNode_at_len (a S : List (List α)) (n : Nat) (h : n = a.length) :
    removeNode (a ++ [] :: S) n = (a ++ S, if S.isEmpty then none else some (n, 0)) := by
  have hlen : (a ++ [] :: S).length = a.length + 1 + S.length := by
    rw [List.length_append, List.length_cons]
    omega
  cases S with
  | nil =>
      rw [if_pos (show ([] : List (List α)).isEmpty = true from rfl)]
      unfold removeNode
      by_cases h1 : (a ++ [[]] : List (List α)).length = 1
      · rw [if_pos h1]
        have ha : a = [] := List.eq_nil_of_length_eq_zero (by omega)
        subst ha
        simp
      · have hlen2 : (a ++ [[]] : List (List α)).length = a.length + 1 := by simp
        rw [if_neg h1, if_neg (by omega), if_pos (by omega),
          eraseIdx_eq_len_append _ _ _ h]
        simp
  | cons s S2 =>
      rw [if_neg (by simp)]
      unfold removeNode
      rw [if_neg (by rw [hlen, List.length_cons]; omega)]
      by_cases h2 : n = 0
      · rw [if_pos h2]
        have ha : a = [] := List.eq_nil_of_length_eq_zero (by omega)
        subst ha
        subst h2
        simp
      · rw [if_neg h2, if_neg (by rw [hlen, List.length_cons]; omega),
          eraseIdx_eq_len_append _ _ _ h]
        simp

theorem getD_set_self (l : List α) (t : Nat) (v d : α) (ht : t < l.length) :
    (l.set t v).getD t d = v := by
  rw [List.getD_eq_getElem _ d (by rw [List.length_set]; exact ht)]
  exact List.getElem_set_self (by rw [List.length_set]; exact ht)

theorem get?_drop_zero (l : List α) (m : Nat) : (l.drop m).get? 0 = l.get? m := by
  rw [List.get?_eq_getElem?, List.get?_eq_getElem?, List.getElem?_drop]
  simp

theorem get?_len_append (a b : List α) (n : Nat) (h : n = a.length) :
    (a ++ b).get? n = b.get? 0 :=
  get?_len_add_append a b n 0 (by omega)

theorem mem_getD_drop (nodes : List (List α)) (k : Nat)
    (hk : k < nodes.length) : nodes.getD k [] ∈ nodes := by
  rw [List.getD_eq_getElem nodes [] hk]
  exact List.getElem_mem hk

theorem eraseResolved_same_node (st : UL α) (t si ei : Nat)
    (hwf : ∀ n ∈ st.nodes, n ≠ [])
    (ht : t < st.nodes.length)
    (hsi : si < (st.nodes.getD t []).length)
    (hei : ei ≤ (st.nodes.getD t []).length)
    (_hlt : si < ei)
    (hend : ei = (st.nodes.getD t []).length → t = st.nodes.length - 1) :
    flat (eraseResolved st (t, si) (t, ei)).1.nodes =
      (flat st.nodes).take ((flat (st.nodes.take t)).length + si) ++
        (flat st.nodes).drop ((flat (st.nodes.take t)).length + ei) ∧
    (eraseResolved st (t, si) (t, ei)).1.totalSize = st.totalSize - (ei - si) ∧
    ((flat (st.nodes.take t)).length + ei < (flat st.nodes).length →
      itValid (eraseResolved st (t, si) (t, ei)).1 (eraseResolved st (t, si) (t, ei)).2 ∧
      itPos (eraseResolved st (t, si) (t, ei)).1 (eraseResolved st (t, si) (t, ei)).2 =
        (flat (st.nodes.take t)).length + si ∧
      derefIt (eraseResolved st (t, si) (t, ei)).1 (eraseResolved st (t, si) (t, ei)).2 =
        (flat st.nodes).get? ((flat (st.nodes.take t)).length + ei)) ∧
    ((flat (st.nodes.take t)).length + ei = (flat st.nodes).length →
      (eraseResolved st (t, si) (t, ei)).2 =
        if t = st.nodes.length - 1 ∧ 0 < si then some (t, si) else none) := by
  have hflat := flat_decomp st.nodes t ht
  have hflen : (flat st.nodes).length =
      (flat (st.nodes.take t)).length +
        ((st.nodes.getD t []).length + (flat (st.nodes.drop (t + 1))).length) := by
    rw [hflat, List.length_append, List.length_append]
  have htake : (st.nodes.take t).length = t := List.length_take_of_le (Nat.le_of_lt ht)
  have hred : eraseResolved st (t, si) (t, ei) =
      if ((st.nodes.getD t []).take si ++ (st.nodes.getD t []).drop ei).length = 0 then
        ((⟨(removeNode (st.nodes.set t
              ((st.nodes.getD t []).take si ++ (st.nodes.getD t []).drop ei)) t).1,
            st.totalSize - (ei - si)⟩ : UL α),
          (removeNode (st.nodes.set t
              ((st.nodes.getD t []).take si ++ (st.nodes.getD t []).drop ei)) t).2)
      else
        ((⟨st.nodes.set t ((st.nodes.getD t []).take si ++ (st.nodes.getD t []).drop ei),
            st.totalSize - (ei - si)⟩ : UL α), some (t, si)) := by
    unfold eraseResolved
    rw [if_pos rfl]
  have hn2len : ((st.nodes.getD t []).take si ++ (st.nodes.getD t []).drop ei).length =
      si + ((st.nodes.getD t []).length - ei) := by
    rw [List.length_append, List.length_take_of_le (Nat.le_of_lt hsi), List.length_drop]
  by_cases hz : ((st.nodes.getD t []).take si ++ (st.nodes.getD t []).drop ei).length = 0
  · -- the node is emptied and removed
    have hsi0 : si = 0 := by omega
    have heilen : ei = (st.nodes.getD t []).length := by omega
    have hn2 : (st.nodes.getD t []).take si ++ (st.nodes.getD t []).drop ei = [] :=
      List.eq_nil_of_length_eq_zero hz
    have hrm : removeNode (st.nodes.set t
        ((st.nodes.getD t []).take si ++ (st.nodes.getD t []).drop ei)) t =
        (st.nodes.take t ++ st.nodes.drop (t + 1),
          if (st.nodes.drop (t + 1)).isEmpty then none else some (t, 0)) := by
      rw [hn2, List.set_eq_take_cons_drop [] ht]
      exact removeNode_at_len _ _ t htake.symm
    rw [hred, if_pos hz, hrm]
    refine ⟨?_, rfl, ?_, ?_⟩
    · show flat (st.nodes.take t ++ st.nodes.drop (t + 1)) = _
      rw [flat_append, hflat,
        take_len_add_append _ _ _ 0 (by omega), drop_len_add_append _ _ _ ei rfl,
        drop_len_append _ _ _ (by omega)]
      simp
    · intro hm
      have hB : ¬(st.nodes.drop (t + 1)).isEmpty := by
        intro hcon
        have : st.nodes.drop (t + 1) = [] := by simpa using hcon
        rw [this] at hflen
        have h0 : (flat ([] : List (List α))).length = 0 := rfl
        omega
      rw [if_neg hB]
      have hdne : st.nodes.drop (t + 1) ≠ [] := by
        intro hcon
        rw [hcon] at hB
        simp at hB
      have hdlen : 0 < (st.nodes.drop (t + 1)).length := List.length_pos.mpr hdne
      have hg0 : (st.nodes.drop (t + 1)).getD 0 [] ∈ st.nodes :=
        List.mem_of_mem_drop (mem_getD_drop _ 0 hdlen)
      have hg0len : 0 < ((st.nodes.drop (t + 1)).getD 0 []).length :=
        List.length_pos.mpr (hwf _ hg0)
      refine ⟨⟨?_, ?_⟩, ?_, ?_⟩
      · show t < (st.nodes.take t ++ st.nodes.drop (t + 1)).length
        rw [List.length_append, htake]
        omega
      · show 0 < ((st.nodes.take t ++ st.nodes.drop (t + 1)).getD t []).length
        rw [getD_len_append _ _ _ _ htake.symm]
        exact hg0len
      · show (flat ((st.nodes.take t ++ st.nodes.drop (t + 1)).take t)).length + 0 = _
        rw [take_len_append _ _ _ htake.symm]
        omega
      · show ((st.nodes.take t ++ st.nodes.drop (t + 1)).getD t []).get? 0 = _
        rw [getD_len_append _ _ _ _ htake.symm, hflat,
          get?_len_add_append _ _ _ ei rfl, heilen,
          get?_len_add_append _ _ _ 0 (by omega)]
        rw [flat_decomp (st.nodes.drop (t + 1)) 0 hdlen]
        rw [get?_len_add_append _ _ 0 0 (by simp [flat]), List.get?_eq_getElem?,
          List.get?_eq_getElem?, List.getElem?_append_left hg0len]
    · intro hm
      have hB : (st.nodes.drop (t + 1)).isEmpty := by
        by_contra hcon
        have hdne : st.nodes.drop (t + 1) ≠ [] := by
          intro hcon2
          rw [hcon2] at hcon
          simp at hcon
        have := flat_length_pos (st.nodes.drop (t + 1))
          (fun n hn => hwf n (List.mem_of_mem_drop hn)) hdne
        omega
      rw [if_pos hB, if_neg (by omega)]
  · -- the node keeps elements: shift down, return (node, start_index)
    rw [hred, if_neg hz]
    have hei2 : (flat (st.nodes.take t)).length + ei = (flat st.nodes).length →
        ei = (st.nodes.getD t []).length ∧ (flat (st.nodes.drop (t + 1))).length = 0 := by
      intro hm
      omega
    refine ⟨?_, rfl, ?_, ?_⟩
    · show flat (st.nodes.set t _) = _
      rw [flat_set_decomp _ _ _ ht, hflat,
        take_len_add_append _ _ _ si rfl, drop_len_add_append _ _ _ ei rfl,
        List.take_append_of_le_length (Nat.le_of_lt hsi),
        List.drop_append_of_le_length hei]
      simp [List.append_assoc]
    · intro hm
      have heilt : ei < (st.nodes.getD t []).length := by
        rcases Nat.lt_or_ge ei (st.nodes.getD t []).length with h1 | h1
        · exact h1
        · have he : ei = (st.nodes.getD t []).length := by omega
          have := hend he
          have hB : st.nodes.drop (t + 1) = [] := by
            apply List.drop_eq_nil_of_le
            omega
          rw [hB] at hflen
          have h0 : (flat ([] : List (List α))).length = 0 := rfl
          omega
      refine ⟨⟨?_, ?_⟩, ?_, ?_⟩
      · show t < (st.nodes.set t _).length
        rw [List.length_set]
        exact ht
      · show si < ((st.nodes.set t _).getD t []).length
        rw [getD_set_self _ _ _ _ ht, hn2len]
        omega
      · show (flat ((st.nodes.set t _).take t)).length + si = _
        rw [take_set_self]
      · show ((st.nodes.set t _).getD t []).get? si = _
        rw [getD_set_self _ _ _ _ ht,
          get?_len_append _ _ _ (List.length_take_of_le (Nat.le_of_lt hsi)).symm,
          get?_drop_zero, flat_get_at st.nodes t ei ht heilt]
    · intro hm
      rcases hei2 hm with ⟨he, hB⟩
      have h1 : t = st.nodes.length - 1 := hend he
      have h2 : 0 < si := by omega
      rw [if_pos ⟨h1, h2⟩]

theorem take_succ_of_lt (l : List α) (t : Nat) (d : α) (ht : t < l.length) :
    l.take (t + 1) = l.take t ++ [l.getD t d] := by
  rw [List.take_succ, List.getElem?_eq_getElem ht, List.getD_eq_getElem l d ht]
  rfl

theorem eraseResolved_cross_node (st : UL α) (t1 si t2 ei : Nat)
    (hwf : ∀ n ∈ st.nodes, n ≠ [])
    (h12 : t1 < t2)
    (ht2 : t2 < st.nodes.length)
    (hsi : si < (st.nodes.getD t1 []).length)
    (hei : ei ≤ (st.nodes.getD t2 []).length) :
    flat (eraseResolved st (t1, si) (t2, ei)).1.nodes =
      (flat st.nodes).take ((flat (st.nodes.take t1)).length + si) ++
        (flat st.nodes).drop ((flat (st.nodes.take t2)).length + ei) ∧
    (eraseResolved st (t1, si) (t2, ei)).1.totalSize =
      st.totalSize - (((flat (st.nodes.take t2)).length + ei) -
        ((flat (st.nodes.take t1)).length + si)) ∧
    ((flat (st.nodes.take t2)).length + ei < (flat st.nodes).length →
      itValid (eraseResolved st (t1, si) (t2, ei)).1 (eraseResolved st (t1, si) (t2, ei)).2 ∧
      itPos (eraseResolved st (t1, si) (t2, ei)).1 (eraseResolved st (t1, si) (t2, ei)).2 =
        (flat (st.nodes.take t1)).length + si ∧
      derefIt (eraseResolved st (t1, si) (t2, ei)).1 (eraseResolved st (t1, si) (t2, ei)).2 =
        (flat st.nodes).get? ((flat (st.nodes.take t2)).length + ei)) ∧
    ((flat (st.nodes.take t2)).length + ei = (flat st.nodes).length →
      (eraseResolved st (t1, si) (t2, ei)).2 = none) := by
  have ht1 : t1 < st.nodes.length := Nat.lt_trans h12 ht2
  have hklen : t2 - (t1 + 1) < (st.nodes.drop (t1 + 1)).length := by
    rw [List.length_drop]
    omega
  have hE := getD_drop_add st.nodes (t1 + 1) (t2 - (t1 + 1)) ([] : List α) (by omega)
  rw [show t1 + 1 + (t2 - (t1 + 1)) = t2 by omega] at hE
  have hdropE := drop_drop_of_eq st.nodes (t1 + 1) (t2 - (t1 + 1) + 1) (t2 + 1) (by omega)
  have hflatDrop : flat (st.nodes.drop (t1 + 1)) =
      flat ((st.nodes.drop (t1 + 1)).take (t2 - (t1 + 1))) ++
        (st.nodes.getD t2 [] ++ flat (st.nodes.drop (t2 + 1))) := by
    rw [flat_decomp (st.nodes.drop (t1 + 1)) (t2 - (t1 + 1)) hklen, hE, hdropE]
  have hflat : flat st.nodes =
      flat (st.nodes.take t1) ++ (st.nodes.getD t1 [] ++
        (flat ((st.nodes.drop (t1 + 1)).take (t2 - (t1 + 1))) ++
          (st.nodes.getD t2 [] ++ flat (st.nodes.drop (t2 + 1))))) := by
    rw [flat_decomp st.nodes t1 ht1, hflatDrop]
  have htake2 : st.nodes.take t2 = st.nodes.take t1 ++ st.nodes.getD t1 [] ::
      (st.nodes.drop (t1 + 1)).take (t2 - (t1 + 1)) := by
    conv_lhs => rw [show t2 = t1 + 1 + (t2 - (t1 + 1)) from by omega]
    rw [List.take_add, take_succ_of_lt st.nodes t1 [] ht1]
    simp [List.append_assoc]
  have hCm : (flat (st.nodes.take t2)).length =
      (flat (st.nodes.take t1)).length + ((st.nodes.getD t1 []).length +
        (flat ((st.nodes.drop (t1 + 1)).take (t2 - (t1 + 1)))).length) := by
    rw [htake2, flat_append, flat_cons]
    simp [List.length_append]
  have hflenAll : (flat st.nodes).length =
      (flat (st.nodes.take t1)).length + ((st.nodes.getD t1 []).length +
        ((flat ((st.nodes.drop (t1 + 1)).take (t2 - (t1 + 1)))).length +
          ((st.nodes.getD t2 []).length + (flat (st.nodes.drop (t2 + 1))).length))) := by
    rw [hflat]
    simp [List.length_append]
  have he2 : ((((st.nodes.drop (t1 + 1)).take (t2 - (t1 + 1))).map List.length).sum) =
      (flat ((st.nodes.drop (t1 + 1)).take (t2 - (t1 + 1)))).length := by
    simp [flat]
  have hsKlen : ((st.nodes.getD t1 []).take si).length = si :=
    List.length_take_of_le (Nat.le_of_lt hsi)
  have hkeepflat : flat (if ((st.nodes.getD t1 []).take si).isEmpty then
      ([] : List (List α)) else [(st.nodes.getD t1 []).take si]) =
      (st.nodes.getD t1 []).take si := flat_keepS _
  have hpreKlen : (st.nodes.take t1 ++
      (if ((st.nodes.getD t1 []).take si).isEmpty then ([] : List (List α))
        else [(st.nodes.getD t1 []).take si])).length =
      (st.nodes.take t1).length +
      (if ((st.nodes.getD t1 []).take si).isEmpty then ([] : List (List α))
        else [(st.nodes.getD t1 []).take si]).length := List.length_append _ _
  have hflatPreK : (flat (st.nodes.take t1 ++
      (if ((st.nodes.getD t1 []).take si).isEmpty then ([] : List (List α))
        else [(st.nodes.getD t1 []).take si]))).length =
      (flat (st.nodes.take t1)).length + si := by
    rw [flat_append, hkeepflat, List.length_append, hsKlen]
  have hred : eraseResolved st (t1, si) (t2, ei) =
      if ((st.nodes.getD t2 []).drop ei).isEmpty then
        ((⟨(removeNode (st.nodes.take t1 ++
              (if ((st.nodes.getD t1 []).take si).isEmpty then []
                else [(st.nodes.getD t1 []).take si]) ++ [] :: st.nodes.drop (t2 + 1))
              ((st.nodes.take t1).length +
                (if ((st.nodes.getD t1 []).take si).isEmpty then ([] : List (List α))
                  else [(st.nodes.getD t1 []).take si]).length)).1,
            st.totalSize - (((st.nodes.getD t1 []).length - si) +
              ((((st.nodes.drop (t1 + 1)).take (t2 - (t1 + 1))).map List.length).sum) +
              ei)⟩ : UL α),
          (removeNode (st.nodes.take t1 ++
              (if ((st.nodes.getD t1 []).take si).isEmpty then []
                else [(st.nodes.getD t1 []).take si]) ++ [] :: st.nodes.drop (t2 + 1))
              ((st.nodes.take t1).length +
                (if ((st.nodes.getD t1 []).take si).isEmpty then ([] : List (List α))
                  else [(st.nodes.getD t1 []).take si]).length)).2)
      else
        ((⟨st.nodes.take t1 ++
              (if ((st.nodes.getD t1 []).take si).isEmpty then []
                else [(st.nodes.getD t1 []).take si]) ++
              ((st.nodes.getD t2 []).drop ei) :: st.nodes.drop (t2 + 1),
            st.totalSize - (((st.nodes.getD t1 []).length - si) +
              ((((st.nodes.drop (t1 + 1)).take (t2 - (t1 + 1))).map List.length).sum) +
              ei)⟩ : UL α),
          some ((st.nodes.take t1).length +
            (if ((st.nodes.getD t1 []).take si).isEmpty then ([] : List (List α))
              else [(st.nodes.getD t1 []).take si]).length, 0)) := by
    unfold eraseResolved
    rw [if_neg (show ¬((t1, si).1 = (t2, ei).1) from by simp; omega)]
  have hwfsuf : ∀ n ∈ st.nodes.drop (t2 + 1), n ≠ [] :=
    fun n hn => hwf n (List.mem_of_mem_drop hn)
  by_cases heK : ((st.nodes.getD t2 []).drop ei).isEmpty
  · -- the end node is emptied and removed by remove_node
    have heKnil : (st.nodes.getD t2 []).drop ei = [] := by simpa using heK
    have heqe : ei = (st.nodes.getD t2 []).length := by
      have hl : (st.nodes.getD t2 []).length - ei = 0 := by
        rw [← List.length_drop, heKnil]
        rfl
      omega
    rw [hred, if_pos heK, removeNode_at_len _ _ _ (by rw [List.length_append])]
    dsimp only
    refine ⟨?_, ?_, ?_, ?_⟩
    · rw [flat_append, flat_append, hkeepflat, hflat,
        take_len_add_append _ _ _ si rfl,
        List.take_append_of_le_length (Nat.le_of_lt hsi),
        drop_len_add_append _ _ _
          ((st.nodes.getD t1 []).length +
            ((flat ((st.nodes.drop (t1 + 1)).take (t2 - (t1 + 1)))).length + ei))
          (by omega),
        drop_len_add_append _ _ _
          ((flat ((st.nodes.drop (t1 + 1)).take (t2 - (t1 + 1)))).length + ei) rfl,
        drop_len_add_append _ _ _ ei rfl,
        List.drop_append_of_le_length hei, heKnil]
      all_goals simp [List.append_assoc]
    · omega
    · intro hm
      have hFS : 0 < (flat (st.nodes.drop (t2 + 1))).length := by omega
      have hsufne : st.nodes.drop (t2 + 1) ≠ [] := by
        intro hcon
        rw [hcon] at hFS
        simp [flat] at hFS
      have hsuflen : 0 < (st.nodes.drop (t2 + 1)).length := List.length_pos.mpr hsufne
      have hg0 : 0 < ((st.nodes.drop (t2 + 1)).getD 0 []).length :=
        List.length_pos.mpr (hwfsuf _ (mem_getD_drop _ 0 hsuflen))
      rw [if_neg (show ¬((st.nodes.drop (t2 + 1)).isEmpty = true) from by
        simpa using hsufne)]
      dsimp only [itValid, itPos, derefIt]
      refine ⟨⟨?_, ?_⟩, ?_, ?_⟩
      · rw [List.length_append]
        omega
      · rw [getD_len_append _ _ _ _ hpreKlen.symm]
        exact hg0
      · rw [take_len_append _ _ _ hpreKlen.symm, hflatPreK]
        omega
      · rw [getD_len_append _ _ _ _ hpreKlen.symm, hflat,
          get?_len_add_append _ _ _
            ((st.nodes.getD t1 []).length +
              ((flat ((st.nodes.drop (t1 + 1)).take (t2 - (t1 + 1)))).length + ei))
            (by omega),
          get?_len_add_append _ _ _
            ((flat ((st.nodes.drop (t1 + 1)).take (t2 - (t1 + 1)))).length + ei) rfl,
          get?_len_add_append _ _ _ ei rfl,
          get?_len_add_append _ _ _ 0 (by omega),
          flat_decomp (st.nodes.drop (t2 + 1)) 0 hsuflen,
          get?_len_add_append _ _ 0 0 (by simp [flat]),
          List.get?_eq_getElem?, List.get?_eq_getElem?, List.getElem?_append_left hg0]
    · intro hm
      have hFS : (flat (st.nodes.drop (t2 + 1))).length = 0 := by omega
      have hsufnil : st.nodes.drop (t2 + 1) = [] := by
        by_contra hcon
        have := flat_length_pos _ hwfsuf hcon
        omega
      rw [hsufnil]
      simp
  · -- the end node keeps a suffix: iterator (end_node, 0)
    have heilt : ei < (st.nodes.getD t2 []).length := by
      by_contra hge
      exact heK (by rw [List.drop_eq_nil_of_le (by omega)]; rfl)
    have heKlen : 0 < ((st.nodes.getD t2 []).drop ei).length := by
      rw [List.length_drop]
      omega
    rw [hred, if_neg heK]
    dsimp only
    refine ⟨?_, ?_, ?_, ?_⟩
    · rw [flat_append, flat_append, flat_cons, hkeepflat, hflat,
        take_len_add_append _ _ _ si rfl,
        List.take_append_of_le_length (Nat.le_of_lt hsi),
        drop_len_add_append _ _ _
          ((st.nodes.getD t1 []).length +
            ((flat ((st.nodes.drop (t1 + 1)).take (t2 - (t1 + 1)))).length + ei))
          (by omega),
        drop_len_add_append _ _ _
          ((flat ((st.nodes.drop (t1 + 1)).take (t2 - (t1 + 1)))).length + ei) rfl,
        drop_len_add_append _ _ _ ei rfl,
        List.drop_append_of_le_length hei]
    · omega
    · intro hm
      dsimp only [itValid, itPos, derefIt]
      refine ⟨⟨?_, ?_⟩, ?_, ?_⟩
      · rw [List.length_append, List.length_cons]
        omega
      · rw [getD_len_append _ _ _ _ hpreKlen.symm]
        exact heKlen
      · rw [take_len_append _ _ _ hpreKlen.symm, hflatPreK]
        omega
      · rw [getD_len_append _ _ _ _ hpreKlen.symm, List.getD_cons_zero,
          get?_drop_zero, hflat,
          get?_len_add_append _ _ _
            ((st.nodes.getD t1 []).length +
              ((flat ((st.nodes.drop (t1 + 1)).take (t2 - (t1 + 1)))).length + ei))
            (by omega),
          get?_len_add_append _ _ _
            ((flat ((st.nodes.drop (t1 + 1)).take (t2 - (t1 + 1)))).length + ei) rfl,
          get?_len_add_append _ _ _ ei rfl,
          List.get?_eq_getElem?, List.get?_eq_getElem?, List.getElem?_append_left heilt]
    · intro hm
      exact absurd hm (by omega)

theorem itPos_le_length (st : UL α) (it : It) (h : itValid st it) :
    itPos st it ≤ (flat st.nodes).length := by
  cases it with
  | none => exact Nat.le_refl _
  | some p =>
      obtain ⟨t, i⟩ := p
      have hv := (itValid_some st t i).mp h
      exact Nat.le_of_lt (itPos_lt_length st t i hv.1 hv.2)

/-- C1: after `emplace_into_node_` has performed its destructive shift (and,
for a full node, its split) the final `allocator_traits::construct` of the
new element throws; the container is NOT observably unchanged.  With
`NodeMaxSize = 4`: inserting at the front of a one-element node `[7]` leaves
the live range `[0, count)` containing a destroyed slot and the value `7` is
no longer observable at its position; inserting into a full node `[1,2,3,4]`
additionally leaves the committed split (two nodes) and a destroyed slot
where element `2` used to be observable. -/
theorem c1_throw_corrupts_state :
    observe (emplaceIntoNodeThrow 4
      [(⟨[some 7, none, none, none], 1⟩ : SlotNode Nat)] 0 0) = [none] ∧
    observe [(⟨[some 7, none, none, none], 1⟩ : SlotNode Nat)] = [some 7] ∧
    observe (emplaceIntoNodeThrow 4
      [(⟨[some 1, some 2, some 3, some 4], 4⟩ : SlotNode Nat)] 0 0) =
      [none, some 1, some 3, some 4] ∧
    (emplaceIntoNodeThrow 4
      [(⟨[some 1, some 2, some 3, some 4], 4⟩ : SlotNode Nat)] 0 0).length = 2 := by
  decide

/-- C2 counterexample: with `NodeMaxSize = 1` an insertion into the (full)
one-element node `[5]` splits off a new node holding `1 / 2 = 0` elements
and then grows the original node to 2 elements — the resulting node count
`2` exceeds `NodeMaxSize = 1`, refuting "no node's count ever exceeds
`NodeMaxSize`" as stated for every `NodeMaxSize`. -/
theorem c2_split_counterexample :
    (emplace 1 (⟨[[5]], 1⟩ : UL Nat) none 6).1.nodes = [[5, 6], []] ∧
    1 < ((emplace 1 (⟨[[5]], 1⟩ : UL Nat) none 6).1.nodes.getD 0 []).length := by
  decide

/-- C3 counterexample: on a single-node container `[1, 2, 3]`
(`NodeMaxSize = 4`), `erase(first, end())` with `first` at index 1 erases the
final two elements, so no element follows the erased range and the claim
requires the end iterator; the source instead returns `iterator(node, 1)`,
whose node pointer is non-null (it does not compare equal to `end()`) and
which does not denote any element (index 1 is not below the node's new
count 1). -/
theorem c3_erase_return_counterexample :
    eraseRange (⟨[[1, 2, 3]], 3⟩ : UL Nat) (some (0, 1)) none =
      ((⟨[[1]], 1⟩ : UL Nat), some (0, 1)) ∧
    (some (0, 1) : It) ≠ (none : It) ∧
    derefIt (⟨[[1]], 1⟩ : UL Nat) (some (0, 1)) = none := by
  decide

/-- C4 counterexample: with `NodeMaxSize = 1`, two `push_back` calls leave
the chain as `[[1, 2], []]` — the split performed by the second insertion
created a node with `1 / 2 = 0` elements, and that empty node persists in
the chain after the operation returns, refuting the invariant as stated for
every `NodeMaxSize`. -/
theorem c4_empty_node_counterexample :
    (pushBack 1 (pushBack 1 (ulEmpty : UL Nat) 1) 2).nodes = [[1, 2], []] ∧
    [] ∈ (pushBack 1 (pushBack 1 (ulEmpty : UL Nat) 1) 2).nodes := by
  decide

set_option maxRecDepth 8000 in
/-- C5: with `NodeMaxSize = 4`, pushing `1..14` to the back and then popping
the front five times leaves `size() == 9` and iterating from `begin()` to
`end()` yields exactly `6, 7, 8, 9, 10, 11, 12, 13, 14`. -/
theorem c5_boundary_fourteen_pop_five :
    boundaryRun.totalSize = 9 ∧
    iterToList boundaryRun 20 (beginIt boundaryRun) =
      [6, 7, 8, 9, 10, 11, 12, 13, 14] ∧
    flat boundaryRun.nodes = [6, 7, 8, 9, 10, 11, 12, 13, 14] := by
  decide

/-- C6: the move constructor transfers the whole chain and `total_size`
to the new container and leaves the source with `head = tail = nullptr`,
`total_size = 0` — the exact state of a default-constructed container, so
`size() == 0`, `begin() == end()`, and every subsequent public operation on
the source behaves as on a freshly constructed empty container. -/
theorem c6_move_construct_transfer {α : Type} (st : UL α) (K : Nat) (op : Op α) :
    (moveConstruct st).1 = st ∧
    (moveConstruct st).2 = ulEmpty ∧
    (moveConstruct st).2.totalSize = 0 ∧
    beginIt (moveConstruct st).2 = none ∧
    applyOp K op (moveConstruct st).2 = applyOp K op ulEmpty :=
  ⟨rfl, rfl, rfl, rfl, rfl⟩

/-- C7: on a container whose nodes are all non-empty (the container
invariant), `front()` and `back()` raise `std::out_of_range` (modelled as
`none`) exactly when the container is empty, and on a non-empty container
`front()` returns the first element of the sequence and `back()` the last. -/
theorem c7_front_back {α : Type} (st : UL α) (h : ∀ n ∈ st.nodes, n ≠ []) :
    (frontVal st = none ↔ st.nodes = []) ∧
    (backVal st = none ↔ st.nodes = []) ∧
    frontVal st = (flat st.nodes).head? ∧
    backVal st = (flat st.nodes).getLast? := by
  obtain ⟨ns, tot⟩ := st
  simp only at h ⊢
  have hback : backVal ⟨ns, tot⟩ = (flat ns).getLast? ∧
      (backVal ⟨ns, tot⟩ = none ↔ ns = []) := by
    induction ns using List.reverseRecOn with
    | nil => simp [backVal, flat]
    | append_singleton m n ih =>
        have hne : n ≠ [] := h n (by simp)
        constructor
        · show backVal ⟨m ++ [n], tot⟩ = (flat (m ++ [n])).getLast?
          have h1 : (m ++ [n]).getLast? = some n := List.getLast?_concat m
          have h2 : flat (m ++ [n]) = flat m ++ n := by
            simp [flat, List.flatten_append]
          rw [backVal, h1, h2, List.getLast?_append_of_ne_nil _ hne]
          show n.get? (n.length - 1) = n.getLast?
          rw [List.get?_eq_getElem?]
          exact (List.getLast?_eq_getElem? n).symm
        · have h1 : (m ++ [n]).getLast? = some n := List.getLast?_concat m
          rw [backVal, h1]
          simp only [List.append_eq_nil, and_false, iff_false]
          cases n with
          | nil => exact absurd rfl hne
          | cons a tl =>
              rw [List.get?_eq_get (by simp)]
              simp
  refine ⟨?_, hback.2, ?_, hback.1⟩
  · cases ns with
    | nil => simp [frontVal]
    | cons n rest =>
        have hne : n ≠ [] := h n (List.mem_cons_self n rest)
        cases n with
        | nil => exact absurd rfl hne
        | cons a tl => simp [frontVal]
  · cases ns with
    | nil => simp [frontVal, flat]
    | cons n rest =>
        have hne : n ≠ [] := h n (List.mem_cons_self n rest)
        cases n with
        | nil => exact absurd rfl hne
        | cons a tl => simp [frontVal, flat]

/-- Witness for C7 at the concrete container `[[3], [4, 5]]`. -/
theorem c7_front_back_witness :
    (frontVal (⟨[[3], [4, 5]], 3⟩ : UL Nat) = none ↔
      (⟨[[3], [4, 5]], 3⟩ : UL Nat).nodes = []) ∧
    (backVal (⟨[[3], [4, 5]], 3⟩ : UL Nat) = none ↔
      (⟨[[3], [4, 5]], 3⟩ : UL Nat).nodes = []) ∧
    frontVal (⟨[[3], [4, 5]], 3⟩ : UL Nat) =
      (flat (⟨[[3], [4, 5]], 3⟩ : UL Nat).nodes).head? ∧
    backVal (⟨[[3], [4, 5]], 3⟩ : UL Nat) =
      (flat (⟨[[3], [4, 5]], 3⟩ : UL Nat).nodes).getLast? :=
  c7_front_back (⟨[[3], [4, 5]], 3⟩ : UL Nat) (by decide)

/-- C8: `erase(it, it)` over the empty range hits the `first == last` guard:
the container state is returned unchanged (same size, same element sequence)
together with an iterator equal to `it`. -/
theorem c8_erase_empty_range_noop {α : Type} (st : UL α) (it : It) :
    eraseRange st it it = (st, it) := by
  rw [eraseRange.eq_def, if_pos (Or.inl rfl)]

/-- C9: incrementing the end iterator (null node pointer) returns it
unchanged for every container state: `operator++` begins with
`if (!current_node) return *this;`, so no node memory is read. -/
theorem c9_increment_end_iterator {α : Type} (st : UL α) :
    iterNext st none = none :=
  rfl

/-- C10: self-assignment is a no-op: both `operator=` overloads are guarded
by `if (this != &other)`, so when source and destination are the same object
(`same = true`) the container keeps its size and element sequence. -/
theorem c10_self_assignment_noop {α : Type} (st : UL α) :
    copyAssign st st true = st ∧ moveAssign st st true = (st, st) :=
  ⟨rfl, rfl⟩

/-- C4 (amended with `2 ≤ NodeMaxSize`, forced by the `NodeMaxSize = 1`
counterexample): starting from a state whose reachable nodes are all
non-empty, every public operation (push/pop at either end, `emplace` at a
valid position, `erase` of any range, `clear`) leaves every node reachable
from `head` with `count ≥ 1`: any node emptied during the mutation is
unlinked and destroyed before the operation returns. -/
theorem c4_no_empty_node_persists {α : Type} (K : Nat) (hK : 2 ≤ K) (st : UL α)
    (h : ∀ n ∈ st.nodes, n ≠ []) (op : Op α) (hop : opValid op st) :
    ∀ n ∈ (applyOp K op st).nodes, n ≠ [] := by
  cases op with
  | pushB x => exact emplace_no_empty K hK st none x h (fun _ => rfl)
  | pushF x =>
      exact emplace_no_empty K hK st (beginIt st) x h (fun hnil => by simp [beginIt, hnil])
  | popB => exact eraseRange_no_empty st _ _ h
  | popF => exact eraseRange_no_empty st _ _ h
  | ins p x0 => exact emplace_no_empty K hK st p x0 h hop
  | ers p q => exact eraseRange_no_empty st p q h
  | clr =>
      intro n hn
      simp [applyOp, clear] at hn

/-- Witness for C4: `push_back` of 2 at `NodeMaxSize = 4` on `[[1]]`. -/
theorem c4_no_empty_node_persists_witness :
    2 ≤ 4 ∧ [1, 2] ∈ (applyOp 4 (Op.pushB 2) (⟨[[1]], 1⟩ : UL Nat)).nodes ∧
    [1, 2] ≠ ([] : List Nat) :=
  ⟨by decide, by decide,
    c4_no_empty_node_persists 4 (by decide) (⟨[[1]], 1⟩ : UL Nat) (by decide)
      (Op.pushB 2) trivial [1, 2] (by decide)⟩

/-- C2 (amended with `2 ≤ NodeMaxSize`, forced by the `NodeMaxSize = 1`
counterexample): inserting into a full node (`count == NodeMaxSize`) splits
it so that exactly `NodeMaxSize - NodeMaxSize/2` elements stay in the
original front node and `NodeMaxSize/2` elements move into one new node
placed immediately after it, the new element then landing in the front half
(when `ptr ≤ NodeMaxSize - NodeMaxSize/2`) or the back half; exactly one
node is added; moreover for every state and position an insert call adds at
most one node, and node counts never exceed `NodeMaxSize`. -/
theorem c2_split_policy {α : Type} (K : Nat) (hK : 2 ≤ K) (st : UL α) (t ptr : Nat) (x : α)
    (hfull : (st.nodes.getD t []).length = K) :
    ((st.nodes.getD t []).take (K - K / 2)).length = K - K / 2 ∧
    ((st.nodes.getD t []).drop (K - K / 2)).length = K / 2 ∧
    (emplaceIntoNode K st t ptr x).1.nodes =
      (if K - K / 2 < ptr then
        st.nodes.take t ++ (st.nodes.getD t []).take (K - K / 2) ::
          insertAt ((st.nodes.getD t []).drop (K - K / 2)) (ptr - (K - K / 2)) x ::
          st.nodes.drop (t + 1)
      else
        st.nodes.take t ++ insertAt ((st.nodes.getD t []).take (K - K / 2)) ptr x ::
          (st.nodes.getD t []).drop (K - K / 2) :: st.nodes.drop (t + 1)) ∧
    (emplaceIntoNode K st t ptr x).1.nodes.length = st.nodes.length + 1 ∧
    (∀ (st2 : UL α) (pos : It),
      (emplace K st2 pos x).1.nodes.length ≤ st2.nodes.length + 1) ∧
    (∀ (st2 : UL α) (pos : It), (∀ n ∈ st2.nodes, n.length ≤ K) →
      ∀ m ∈ (emplace K st2 pos x).1.nodes, m.length ≤ K) := by
  have ht := full_t_lt K (by omega) st t hfull
  exact ⟨List.length_take_of_le (by rw [hfull]; omega),
    by rw [List.length_drop, hfull]; omega,
    emplaceIntoNode_full K st t ptr x hfull ht,
    emplaceIntoNode_full_length K (by omega) st t ptr x hfull,
    fun st2 pos => emplace_le_one_new_node K (by omega) st2 pos x,
    fun st2 pos h2 => emplace_bound K hK st2 pos x h2⟩

/-- Witness for C2: `NodeMaxSize = 4`, full node `[1,2,3,4]`, insert 9 at
index 2. -/
theorem c2_split_policy_witness :
    (((⟨[[1, 2, 3, 4]], 4⟩ : UL Nat).nodes.getD 0 []).take (4 - 4 / 2)).length = 4 - 4 / 2 ∧
    (((⟨[[1, 2, 3, 4]], 4⟩ : UL Nat).nodes.getD 0 []).drop (4 - 4 / 2)).length = 4 / 2 ∧
    (emplaceIntoNode 4 (⟨[[1, 2, 3, 4]], 4⟩ : UL Nat) 0 2 9).1.nodes =
      (if 4 - 4 / 2 < 2 then
        (⟨[[1, 2, 3, 4]], 4⟩ : UL Nat).nodes.take 0 ++
          ((⟨[[1, 2, 3, 4]], 4⟩ : UL Nat).nodes.getD 0 []).take (4 - 4 / 2) ::
          insertAt (((⟨[[1, 2, 3, 4]], 4⟩ : UL Nat).nodes.getD 0 []).drop (4 - 4 / 2))
            (2 - (4 - 4 / 2)) 9 ::
          (⟨[[1, 2, 3, 4]], 4⟩ : UL Nat).nodes.drop (0 + 1)
      else
        (⟨[[1, 2, 3, 4]], 4⟩ : UL Nat).nodes.take 0 ++
          insertAt (((⟨[[1, 2, 3, 4]], 4⟩ : UL Nat).nodes.getD 0 []).take (4 - 4 / 2)) 2 9 ::
          ((⟨[[1, 2, 3, 4]], 4⟩ : UL Nat).nodes.getD 0 []).drop (4 - 4 / 2) ::
          (⟨[[1, 2, 3, 4]], 4⟩ : UL Nat).nodes.drop (0 + 1)) ∧
    (emplaceIntoNode 4 (⟨[[1, 2, 3, 4]], 4⟩ : UL Nat) 0 2 9).1.nodes.length =
      (⟨[[1, 2, 3, 4]], 4⟩ : UL Nat).nodes.length + 1 ∧
    (∀ (st2 : UL Nat) (pos : It),
      (emplace 4 st2 pos 9).1.nodes.length ≤ st2.nodes.length + 1) ∧
    (∀ (st2 : UL Nat) (pos : It), (∀ n ∈ st2.nodes, n.length ≤ 4) →
      ∀ m ∈ (emplace 4 st2 pos 9).1.nodes, m.length ≤ 4) :=
  c2_split_policy 4 (by decide) (⟨[[1, 2, 3, 4]], 4⟩ : UL Nat) 0 2 9 (by decide)

/-- C3: the iterator returned by `erase(first, last)` on a valid non-empty
range.  When an element followed the erased range (`itPos last < size`), the
returned iterator is valid, sits at flattened position `itPos first`, and
dereferences to that following element.  When the erased range was a suffix
of the sequence (`itPos last = size`), the returned iterator is
`suffixEraseReturn`: the end iterator unless the erase kept a non-empty
prefix of the tail node, in which case it is the past-the-end position
`(tail, tail->count)` inside that node, which neither equals `end()` nor
denotes an element.  The erased elements are exactly the flattened range
`[itPos first, itPos last)` and `total_size` drops by its width. -/
theorem c3_erase_returned_iterator (st : UL α) (first last : It)
    (hwf : ∀ n ∈ st.nodes, n ≠ [])
    (hsz : st.totalSize = (flat st.nodes).length)
    (hf : itValid st first) (hl : itValid st last)
    (hlt : itPos st first < itPos st last) :
    flat (eraseRange st first last).1.nodes =
      (flat st.nodes).take (itPos st first) ++ (flat st.nodes).drop (itPos st last) ∧
    (eraseRange st first last).1.totalSize =
      st.totalSize - (itPos st last - itPos st first) ∧
    (itPos st last < (flat st.nodes).length →
      itValid (eraseRange st first last).1 (eraseRange st first last).2 ∧
      itPos (eraseRange st first last).1 (eraseRange st first last).2 = itPos st first ∧
      derefIt (eraseRange st first last).1 (eraseRange st first last).2 =
        (flat st.nodes).get? (itPos st last)) ∧
    (itPos st last = (flat st.nodes).length →
      (eraseRange st first last).2 = suffixEraseReturn st first) := by
  have hlastle : itPos st last ≤ (flat st.nodes).length := itPos_le_length st last hl
  cases first with
  | none =>
      exfalso
      have h0 : itPos st (none : It) = (flat st.nodes).length := rfl
      omega
  | some pf =>
    obtain ⟨tf, si⟩ := pf
    have hfv := (itValid_some st tf si).mp hf
    have hguard : ¬(some (tf, si) = last ∨ st.totalSize = 0) := by
      push_neg
      refine ⟨fun h => ?_, by omega⟩
      rw [h] at hlt
      exact absurd hlt (lt_irrefl _)
    cases last with
    | some pl =>
        obtain ⟨tl, ei⟩ := pl
        have hlv := (itValid_some st tl ei).mp hl
        have hred : eraseRange st (some (tf, si)) (some (tl, ei)) =
            eraseResolved st (tf, si) (tl, ei) := by
          unfold eraseRange
          rw [if_neg hguard]
        have hlast_lt : itPos st (some (tl, ei)) < (flat st.nodes).length :=
          itPos_lt_length st tl ei hlv.1 hlv.2
        rw [hred]
        rw [itPos_some st tf si] at hlt ⊢
        rw [itPos_some st tl ei] at hlt hlast_lt ⊢
        by_cases hsame : tf = tl
        · subst hsame
          have hslt : si < ei := by omega
          have h := eraseResolved_same_node st tf si ei hwf hfv.1 hfv.2
              (Nat.le_of_lt hlv.2) hslt
              (fun hc => absurd hc (Nat.ne_of_lt hlv.2))
          refine ⟨h.1, ?_, h.2.2.1, fun hm => absurd hm (by omega)⟩
          have h2 := h.2.1
          omega
        · have h12 : tf < tl := by
            rcases Nat.lt_or_ge tf tl with h | h
            · exact h
            · exfalso
              have hlt2 := itPos_node_lt st tl ei tf si (by omega) hlv.1 hlv.2
              rw [itPos_some st tl ei, itPos_some st tf si] at hlt2
              omega
          have h := eraseResolved_cross_node st tf si tl ei hwf h12 hlv.1 hfv.2
              (Nat.le_of_lt hlv.2)
          exact ⟨h.1, h.2.1, h.2.2.1, fun hm => absurd hm (by omega)⟩
    | none =>
        have hlen0 : 0 < (flat st.nodes).length := by
          have h0 : itPos st (none : It) = (flat st.nodes).length := rfl
          omega
        have hL : 0 < st.nodes.length := by
          by_contra hc
          have h0 : st.nodes = [] := List.eq_nil_of_length_eq_zero (by omega)
          have h1 : (flat st.nodes).length = 0 := by rw [h0]; rfl
          omega
        have htail : (flat (st.nodes.take (st.nodes.length - 1))).length +
            (st.nodes.getD (st.nodes.length - 1) []).length = (flat st.nodes).length := by
          have h1 := flat_take_succ st.nodes (st.nodes.length - 1) (by omega)
          rw [show st.nodes.length - 1 + 1 = st.nodes.length from by omega,
            List.take_length] at h1
          conv_rhs => rw [h1]
          rw [List.length_append]
        have hred : eraseRange st (some (tf, si)) none =
            eraseResolved st (tf, si)
              (st.nodes.length - 1, (st.nodes.getD (st.nodes.length - 1) []).length) := by
          unfold eraseRange
          rw [if_neg hguard]
        rw [hred]
        rw [itPos_some st tf si, itPos_none st] at hlt ⊢
        by_cases htf : tf = st.nodes.length - 1
        · subst htf
          have h := eraseResolved_same_node st (st.nodes.length - 1) si
              ((st.nodes.getD (st.nodes.length - 1) []).length) hwf hfv.1 hfv.2
              (Nat.le_refl _) hfv.2 (fun _ => rfl)
          have h1 := h.1
          rw [htail] at h1
          refine ⟨h1, ?_, fun hm => absurd hm (by omega), fun _ => ?_⟩
          · have h2 := h.2.1
            omega
          · exact h.2.2.2 htail
        · have h12 : tf < st.nodes.length - 1 := by omega
          have h := eraseResolved_cross_node st tf si (st.nodes.length - 1)
              ((st.nodes.getD (st.nodes.length - 1) []).length) hwf h12 (by omega)
              hfv.2 (Nat.le_refl _)
          have h1 := h.1
          rw [htail] at h1
          refine ⟨h1, ?_, fun hm => absurd hm (by omega), fun _ => ?_⟩
          · have h2 := h.2.1
            omega
          · have h4 := h.2.2.2 htail
            exact h4.trans (if_neg (fun hc => htf hc.1)).symm

theorem c3_erase_returned_iterator_witness :
    (∀ n ∈ c3st.nodes, n ≠ []) ∧ c3st.totalSize = (flat c3st.nodes).length ∧
    itValid c3st (some (0, 1)) ∧ itValid c3st (some (1, 1)) ∧
    itPos c3st (some (0, 1)) < itPos c3st (some (1, 1)) ∧
    flat (eraseRange c3st (some (0, 1)) (some (1, 1))).1.nodes =
      (flat c3st.nodes).take (itPos c3st (some (0, 1))) ++
        (flat c3st.nodes).drop (itPos c3st (some (1, 1))) ∧
    (eraseRange c3st (some (0, 1)) (some (1, 1))).1.totalSize =
      c3st.totalSize - (itPos c3st (some (1, 1)) - itPos c3st (some (0, 1))) := by
  have hwf : ∀ n ∈ c3st.nodes, n ≠ [] := by decide
  have hsz : c3st.totalSize = (flat c3st.nodes).length := rfl
  have hf : itValid c3st (some (0, 1)) := ⟨by decide, by decide⟩
  have hl : itValid c3st (some (1, 1)) := ⟨by decide, by decide⟩
  have hlt : itPos c3st (some (0, 1)) < itPos c3st (some (1, 1)) := by decide
  have h := c3_erase_returned_iterator c3st (some (0, 1)) (some (1, 1)) hwf hsz hf hl hlt
  exact ⟨hwf, hsz, hf, hl, hlt, h.1, h.2.1⟩

end UnrolledList
